import Mathlib

/-!
Verification of the privoxy log analyzer (`main.py`).

The development shallowly embeds the parts of the program that the checked
claims are about:

* the 5-hour session inference loop `analyze_sessions` (main.py lines 129-179),
* the forecast of the next session in `generate_json_report` (lines 633-688),
* the log line matcher `parse_log_line` (lines 105-112) together with the
  compiled pattern (lines 72-76) and the timestamp validation performed by
  `datetime.strptime`,
* the per-day persistence `save_daily_data` (lines 201-219) and the reload
  path `load_all_data_with_sessions` (lines 181-199),
* the file counting in `generate_json_report` (line 567) and
  `generate_report` (line 230).

Activity instants are naive local datetimes that always sit on a whole hour
(`datetime.combine(day, midnight) + timedelta(hours=hour)`), so they are
modelled as natural numbers counting hours: a point on day `d` (an epoch day
index) at local hour `h` sits at instant `d * 24 + h`.  The 5-hour window
`timedelta(hours=5)` becomes `+ 5` on these numbers, and datetime comparison
becomes comparison of naturals, which is faithful because the Python
datetimes in play differ exactly when the corresponding hour counts differ.
-/

namespace Privoxy

/-! ### The session window loop of `analyze_sessions` (main.py lines 153-177)

`sessionScan` is the inner `while` loop (lines 163-167): starting from the
cursor it consumes every time point strictly before `sessionEnd`, recording
the assignment `point ↦ sessionNum`, and returns the recorded assignments
together with the unconsumed suffix (the position `j` of the cursor when the
loop stops).  `sessionLoop` is the outer `while` loop (lines 157-177): it
anchors the window at the first unconsumed point, runs the inner loop, and
either stops (`break`, line 177) when nothing remains or increments the
session number and continues from the remainder.  This pure version works on
the bare instants; `sessionScanFull` and `sessionLoopFull` below are the
same loops acting on the day records. -/

def sessionScan (sessionEnd sessionNum : Nat) : List Nat → List (Nat × Nat) × List Nat
  | [] => ([], [])
  | t :: rest =>
    if t < sessionEnd then
      ((t, sessionNum) :: (sessionScan sessionEnd sessionNum rest).1,
        (sessionScan sessionEnd sessionNum rest).2)
    else ([], t :: rest)

def sessionLoop (sessionNum : Nat) (pts : List Nat) : List (Nat × Nat) :=
  match pts with
  | [] => []
  | t :: rest =>
    (sessionScan (t + 5) sessionNum (t :: rest)).1 ++
      (if (sessionScan (t + 5) sessionNum (t :: rest)).2 = [] then []
       else sessionLoop (sessionNum + 1) ((sessionScan (t + 5) sessionNum (t :: rest)).2))
termination_by pts.length
decreasing_by
  have key : ∀ (e n : Nat) (l : List Nat), ((sessionScan e n l).2).length ≤ l.length := by
    intro e n l
    induction l with
    | nil => exact Nat.le_refl _
    | cons c cs ih =>
      rw [sessionScan]
      by_cases h : c < e
      · rw [if_pos h]
        exact Nat.le_trans ih (Nat.le_succ _)
      · rw [if_neg h]
  rw [sessionScan, if_pos (show t < t + 5 by omega)]
  exact Nat.lt_succ_of_le (key (t + 5) sessionNum rest)

/-- Start instants of the successive sessions opened by the loop: the head of
each unconsumed remainder, in order. -/
def sessionStarts : List Nat → List Nat
  | [] => []
  | t :: rest => t :: sessionStarts (rest.dropWhile (fun x => x < t + 5))
termination_by l => l.length
decreasing_by
  simp only [List.length_cons]
  exact Nat.lt_succ_of_le ((List.dropWhile_sublist _).length_le)

/-! ### Full `analyze_sessions` over day records (main.py lines 129-179)

A day record carries the fields the function reads and writes:
`requests` mirrors the `requests` entry, `hourly` the `hourly` dictionary
(hour ↦ count, an association list in insertion order), and `sessions` the
`sessions` dictionary, which is `none` when the key is absent — exactly the
state of `daily_stats[day]` before line 149 runs for that day.  Calendar
dates are epoch day indices. -/

structure TimePoint where
  dt : Nat
  day : Nat
  hour : Nat
  count : Nat
deriving Repr, DecidableEq

structure DayStats where
  requests : Nat
  hourly : List (Nat × Nat)
  sessions : Option (List (Nat × Nat))
deriving Repr, DecidableEq

abbrev DailyStats := List (Nat × DayStats)

/-- Lines 132-139: collect `(dt, day, hour, count)` for every hour with a
positive count, day by day and hour by hour in insertion order.
`datetime.combine(day, midnight) + timedelta(hours=hour)` is `day * 24 +
hour` in the hour-count model. -/
def timePoints (ds : DailyStats) : List TimePoint :=
  ds.flatMap (fun p =>
    p.2.hourly.filterMap (fun hc =>
      if 0 < hc.2 then some ⟨p.1 * 24 + hc.1, p.1, hc.1, hc.2⟩ else none))

/-- Strict lexicographic comparison of the tuples
`(dt, day, hour, count)`, the order used by `time_points.sort()`. -/
def tpLT (p q : TimePoint) : Bool :=
  p.dt < q.dt ∨ (p.dt = q.dt ∧ (p.day < q.day ∨ (p.day = q.day ∧
    (p.hour < q.hour ∨ (p.hour = q.hour ∧ p.count < q.count)))))

def insertPoint (x : TimePoint) : List TimePoint → List TimePoint
  | [] => [x]
  | y :: ys => if tpLT x y then x :: y :: ys else y :: insertPoint x ys

/-- Line 142, `time_points.sort()`: a stable ascending sort.  Insertion
sort placing each element after its equals is stable, and stable ascending
sorts of the same list agree, so this is extensionally the list-sort of the
source. -/
def sortPoints (l : List TimePoint) : List TimePoint :=
  l.foldl (fun acc x => insertPoint x acc) []

/-- Lines 147-151: give every known day a sessions table assigning 0 to
each hour 0..23, in that order. -/
def initSessions (ds : DailyStats) : DailyStats :=
  ds.map (fun p =>
    (p.1, { p.2 with sessions := some ((List.range 24).map (fun h => (h, 0))) }))

/-- Assignment `d[k] = v` on a dictionary in insertion order: replace in
place if the key exists, append otherwise. -/
def dictInsert (m : List (Nat × Nat)) (k v : Nat) : List (Nat × Nat) :=
  match m with
  | [] => [(k, v)]
  | kv :: rest => if kv.1 = k then (k, v) :: rest else kv :: dictInsert rest k v

/-- Line 166, `daily_stats[day]['sessions'][hour] = session_num`.  The day
is always one of the keys of the mapping and its sessions table has been
initialised by the time this runs, so the `getD []` fallback is never
exercised on reachable states. -/
def setSession (ds : DailyStats) (day hour snum : Nat) : DailyStats :=
  ds.map (fun p =>
    if p.1 = day then
      (p.1, { p.2 with sessions := some (dictInsert (p.2.sessions.getD []) hour snum) })
    else p)

/-- Inner while loop, lines 163-167, acting on the full day records. -/
def sessionScanFull (sessionEnd sessionNum : Nat) :
    List TimePoint → DailyStats → DailyStats × List TimePoint
  | [], ds => (ds, [])
  | p :: rest, ds =>
    if p.dt < sessionEnd then
      sessionScanFull sessionEnd sessionNum rest (setSession ds p.day p.hour sessionNum)
    else (ds, p :: rest)

/-- Outer while loop, lines 157-177, acting on the full day records. -/
def sessionLoopFull (sessionNum : Nat) (tps : List TimePoint) (ds : DailyStats) :
    DailyStats :=
  match tps with
  | [] => ds
  | p :: rest =>
    if (sessionScanFull (p.dt + 5) sessionNum (p :: rest) ds).2 = [] then
      (sessionScanFull (p.dt + 5) sessionNum (p :: rest) ds).1
    else
      sessionLoopFull (sessionNum + 1)
        ((sessionScanFull (p.dt + 5) sessionNum (p :: rest) ds).2)
        ((sessionScanFull (p.dt + 5) sessionNum (p :: rest) ds).1)
termination_by tps.length
decreasing_by
  have key : ∀ (e n : Nat) (l : List TimePoint) (ds2 : DailyStats),
      ((sessionScanFull e n l ds2).2).length ≤ l.length := by
    intro e n l
    induction l with
    | nil => intro ds2; exact Nat.le_refl _
    | cons c cs ih =>
      intro ds2
      rw [sessionScanFull]
      by_cases h : c.dt < e
      · rw [if_pos h]
        exact Nat.le_trans (ih _) (Nat.le_succ _)
      · rw [if_neg h]
  rw [sessionScanFull]
  rw [if_pos (by omega)]
  exact Nat.lt_succ_of_le (key _ _ _ _)

/-- The whole of `analyze_sessions` (lines 129-179): build and sort the
activity points, return the input untouched when there are none (lines
144-145 — note this happens before the sessions tables are initialised),
otherwise initialise the sessions tables and run the loop. -/
def analyzeSessions (ds : DailyStats) : DailyStats :=
  if sortPoints (timePoints ds) = [] then ds
  else sessionLoopFull 1 (sortPoints (timePoints ds)) (initSessions ds)

/-- The sessions table of a day record is present and defined on every hour
0..23. -/
def sessionsComplete (st : DayStats) : Prop :=
  ∃ m, st.sessions = some m ∧ ∀ h, h < 24 → ((m.lookup h).isSome : Prop)

/-! ### The forecast of `generate_json_report` (main.py lines 633-688)

`lookupD m k d` is `m.get(k, d)`.  The stats of the most recent day are
read through `hourly.get(str(hour), 0)` and `sessions.get(hour, 0)`; hour
keys are naturals on both sides of the model (the string round trip of the
keys is treated in the persistence section). -/

def lookupD (m : List (Nat × Nat)) (k d : Nat) : Nat := (m.lookup k).getD d

/-- Hour `h` of the day is active: positive session id and positive query
count (line 650, `session_num > 0 and queries > 0`). -/
def activeAt (hourly sessions : List (Nat × Nat)) (h : Nat) : Prop :=
  0 < lookupD sessions h 0 ∧ 0 < lookupD hourly h 0

instance (hourly sessions : List (Nat × Nat)) (h : Nat) :
    Decidable (activeAt hourly sessions h) :=
  inferInstanceAs (Decidable (_ ∧ _))

/-- Lines 647-651: the `(hour, session id)` pairs of the active hours, in
ascending hour order. -/
def activeSessions (hourly sessions : List (Nat × Nat)) : List (Nat × Nat) :=
  (List.range 24).filterMap (fun h =>
    if activeAt hourly sessions h then some (h, lookupD sessions h 0) else none)

/-- Strict lexicographic comparison of `(hour, session id)` pairs, the order
used by `active_sessions.sort()`. -/
def pairLT (p q : Nat × Nat) : Bool :=
  p.1 < q.1 ∨ (p.1 = q.1 ∧ p.2 < q.2)

def insertPair (x : Nat × Nat) : List (Nat × Nat) → List (Nat × Nat)
  | [] => [x]
  | y :: ys => if pairLT x y then x :: y :: ys else y :: insertPair x ys

/-- Line 655, `active_sessions.sort()`: stable ascending sort of the active
pairs (a no-op here, because the list is built in ascending hour order, which
`sortActive_of_pairwise_fst` below proves). -/
def sortActive (l : List (Nat × Nat)) : List (Nat × Nat) :=
  l.foldl (fun acc x => insertPair x acc) []

/-- Loop body of lines 660-663: keep the smallest hour whose session id is
the searched one. -/
def startHourStep (sessions : List (Nat × Nat)) (snum : Nat)
    (acc : Option Nat) (hour : Nat) : Option Nat :=
  if lookupD sessions hour 0 = snum then
    match acc with
    | none => some hour
    | some cur => if hour < cur then some hour else some cur
  else acc

/-- Lines 658-663: the earliest hour of the day assigned to session `snum`
(`session_start_hour`), `none` when no hour carries that id. -/
def sessionStartHour (sessions : List (Nat × Nat)) (snum : Nat) : Option Nat :=
  (List.range 24).foldl (startHourStep sessions snum) none

/-- Lines 653-688: the predicted next session of the most recent day.  The
last element of the sorted active list is `active_sessions[-1]`; the date
wraps to the next day when `start_hour + 5 ≥ 24` (lines 667-678). -/
def predictedNextSession (latestDay : Nat) (hourly sessions : List (Nat × Nat)) :
    Option (Nat × Nat) :=
  match (sortActive (activeSessions hourly sessions)).getLast? with
  | none => none
  | some la =>
    match sessionStartHour sessions la.2 with
    | none => none
    | some sh =>
      if sh + 5 ≥ 24 then some (latestDay + 1, (sh + 5) % 24)
      else some (latestDay, sh + 5)

/-- Lines 635-639, `sorted(daily_stats.keys(), reverse=True)[0]`: the most
recent recorded day, `none` when no day is known (the `if table_data` guard
of line 635). -/
def maxDay? (ds : DailyStats) : Option Nat :=
  match ds.map Prod.fst with
  | [] => none
  | d :: rest => some (rest.foldl max d)

/-- The prediction path of `generate_json_report` (lines 544-688 restricted
to the prediction): analyze the sessions of all loaded days and forecast
from the stats of the most recent day.  The source reads `stats['sessions']`
directly and would raise a KeyError were the key absent (that corner is the
subject of the partition-completeness claim); the `getD []` fallback stands
for the states where the key is present. -/
def reportPrediction (ds : DailyStats) : Option (Nat × Nat) :=
  match maxDay? (analyzeSessions ds) with
  | none => none
  | some d =>
    match (analyzeSessions ds).lookup d with
    | none => none
    | some st => predictedNextSession d st.hourly (st.sessions.getD [])

/-! ### Specification-side definitions for the forecast claim

These two definitions follow the words of the specification, not the
source, and exist to be compared with `reportPrediction`: the forecast is
said to be the start of the latest known session — its earliest covered
instant across all days — plus exactly 5 hours. -/

/-- Written from the spec: the id of the latest known session, the largest
session id assigned anywhere (ids increase in the order sessions open). -/
def specLatestSessionId (ds : DailyStats) : Nat :=
  ds.foldl (fun acc p => ((p.2.sessions.getD []).map Prod.snd).foldl max acc) 0

/-- Written from the spec: the instants `day * 24 + hour` of the hours
assigned to the given session id, across all days. -/
def specSessionInstants (ds : DailyStats) (snum : Nat) : List Nat :=
  ds.flatMap (fun p =>
    ((p.2.sessions.getD []).filter (fun hs => hs.2 = snum)).map
      (fun hs => p.1 * 24 + hs.1))

def listMin? : List Nat → Option Nat
  | [] => none
  | x :: xs => some (xs.foldl min x)

/-- Written from the spec (claim C6): the predicted next session start as an
absolute instant — the earliest instant covered by the latest known session
plus exactly 5 hours. -/
def specNextSessionInstant (ds : DailyStats) : Option Nat :=
  match listMin? (specSessionInstants (analyzeSessions ds)
      (specLatestSessionId (analyzeSessions ds))) with
  | none => none
  | some i => some (i + 5)

/-! ### The log line matcher (main.py lines 72-76 and 105-112)

The compiled pattern is
`(\d{4}-\d{2}-\d{2} \d{2}:\d{2}:\d{2}\.\d{3}) \w+ Request: (domain:\d+/)`
with the dots of the configured target domain escaped, matched with
`re.match` (anchored at the start, trailing content ignored) after
`line.strip()`.  The greedy `\w+` and `\d+` runs are deterministic because
the characters that follow them in the pattern (a space, a slash) are not
word or digit characters, so matching maximal runs is exact.  The word
class is modelled over ASCII letters, digits and the underscore — the
characters that occur in privoxy severity words.  On a match,
`datetime.strptime` re-parses the timestamp text and raises `ValueError`
unless the fields form a valid calendar datetime; `validTimestamp` mirrors
those checks (month and day ranges including leap years via `datetime.date`,
hour below 24, minute and second below 60, year at least 1). -/

structure Timestamp where
  year : Nat
  month : Nat
  day : Nat
  hour : Nat
  minute : Nat
  second : Nat
  millisecond : Nat
deriving Repr, DecidableEq

/-- Read exactly `n` digits, accumulating their value onto `v`. -/
def readDigits (v : Nat) : Nat → List Char → Option (Nat × List Char)
  | 0, l => some (v, l)
  | _ + 1, [] => none
  | n + 1, c :: l =>
    if c.isDigit then readDigits (v * 10 + (c.toNat - 48)) n l else none

def expectChar (c : Char) : List Char → Option (List Char)
  | [] => none
  | x :: l => if x = c then some l else none

def expectChars : List Char → List Char → Option (List Char)
  | [], l => some l
  | c :: cs, l =>
    match expectChar c l with
    | none => none
    | some l2 => expectChars cs l2

def isWordChar (c : Char) : Bool := c.isAlphanum || c = '_'

def skipWordRest : List Char → List Char
  | [] => []
  | c :: l => if isWordChar c then skipWordRest l else c :: l

/-- Greedy `\w+`: at least one word character, then the maximal run. -/
def skipWord1 : List Char → Option (List Char)
  | [] => none
  | c :: l => if isWordChar c then some (skipWordRest l) else none

/-- Greedy `\d+`: the maximal digit run and the remainder. -/
def takeDigitsRun : List Char → List Char × List Char
  | [] => ([], [])
  | c :: l =>
    if c.isDigit then
      ((c :: (takeDigitsRun l).1), (takeDigitsRun l).2)
    else ([], c :: l)

/-- Python `str.strip()`: whitespace removed from both ends (the regex being
anchored at the start, only the leading trim can matter for a match). -/
def pyStrip (l : List Char) : List Char :=
  ((l.dropWhile Char.isWhitespace).reverse.dropWhile Char.isWhitespace).reverse

/-- The timestamp group `\d{4}-\d{2}-\d{2} \d{2}:\d{2}:\d{2}\.\d{3}`. -/
def readTimestamp (l : List Char) : Option (Timestamp × List Char) := do
  let (y, l) ← readDigits 0 4 l
  let l ← expectChar '-' l
  let (mo, l) ← readDigits 0 2 l
  let l ← expectChar '-' l
  let (da, l) ← readDigits 0 2 l
  let l ← expectChar ' ' l
  let (hh, l) ← readDigits 0 2 l
  let l ← expectChar ':' l
  let (mi, l) ← readDigits 0 2 l
  let l ← expectChar ':' l
  let (ss, l) ← readDigits 0 2 l
  let l ← expectChar '.' l
  let (ms, l) ← readDigits 0 3 l
  pure (⟨y, mo, da, hh, mi, ss, ms⟩, l)

/-- The literal `Request: ` between the severity word and the domain. -/
def requestLiteral : List Char := ['R', 'e', 'q', 'u', 'e', 's', 't', ':', ' ']

/-- The full anchored pattern; returns the parsed timestamp fields and the
second capture group `domain:port/`. -/
def matchLogPattern (domain : List Char) (l : List Char) :
    Option (Timestamp × List Char) := do
  let (ts, l) ← readTimestamp l
  let l ← expectChar ' ' l
  let l ← skipWord1 l
  let l ← expectChar ' ' l
  let l ← expectChars requestLiteral l
  let l ← expectChars domain l
  let l ← expectChar ':' l
  match takeDigitsRun l with
  | ([], _) => none
  | (ds, l2) =>
    match expectChar '/' l2 with
    | none => none
    | some _ => pure (ts, domain ++ ':' :: (ds ++ ['/']))

def isLeapYear (y : Nat) : Bool := (y % 4 = 0 && y % 100 ≠ 0) || y % 400 = 0

def daysInMonth (y m : Nat) : Nat :=
  if m = 2 then (if isLeapYear y then 29 else 28)
  else if m = 4 ∨ m = 6 ∨ m = 9 ∨ m = 11 then 30
  else 31

/-- The calendar checks applied by `datetime.strptime` and the `datetime`
constructor: a timestamp whose digit shape matches the pattern still raises
`ValueError` unless these hold. -/
def validTimestamp (t : Timestamp) : Bool :=
  1 ≤ t.year && 1 ≤ t.month && t.month ≤ 12 && 1 ≤ t.day &&
    t.day ≤ daysInMonth t.year t.month && t.hour ≤ 23 && t.minute ≤ 59 &&
    t.second ≤ 59

/-- The function `parse_log_line` (lines 105-112): strip, match the anchored pattern,
return no event on a mismatch, and re-parse the timestamp with `strptime`
on a match — which raises (`Except.error`) on a calendar-invalid timestamp
and otherwise yields the event `(timestamp, matched domain group)`. -/
def parseLogLine (domain : List Char) (line : List Char) :
    Except Unit (Option (Timestamp × List Char)) :=
  match matchLogPattern domain (pyStrip line) with
  | none => Except.ok none
  | some (ts, grp) =>
    if validTimestamp ts then Except.ok (some (ts, grp)) else Except.error ()

/-! ### Per-day persistence (main.py lines 181-219)

`save_daily_data` writes one JSON file per aggregated day into the data
directory; hour keys become decimal strings because JSON object keys are
strings.  The directory is modelled as an association list from the day (of
the `<date>.json` file name) to the persisted payload; the report files
written by other functions live under different, non-day names and are
outside this map. -/

structure PersistedDay where
  date : Nat
  total_requests : Nat
  hourly_distribution : List (String × Nat)
deriving Repr, DecidableEq

/-- The JSON payload written for one day (lines 214-219). -/
def saveDayRecord (day : Nat) (st : DayStats) : PersistedDay :=
  { date := day, total_requests := st.requests,
    hourly_distribution := st.hourly.map (fun p => (toString p.1, p.2)) }

/-- The reload of lines 188-195: `requests` from `total_requests` and the
hourly mapping from `hourly_distribution`, hour keys staying decimal
strings. -/
def loadDayRecord (p : PersistedDay) : Nat × List (String × Nat) :=
  (p.total_requests, p.hourly_distribution)

abbrev FileSys := List (Nat × PersistedDay)

/-- Writing a file: create it or replace its contents. -/
def fsWrite (fs : FileSys) (day : Nat) (content : PersistedDay) : FileSys :=
  match fs with
  | [] => [(day, content)]
  | kv :: rest =>
    if kv.1 = day then (day, content) :: rest else kv :: fsWrite rest day content

/-- Loop body of `save_daily_data` (lines 205-219) for one aggregated day:
skip the write when the file exists and the day is not today (lines
208-210); otherwise — today, or no file yet — write the serialized record
(lines 212-219). -/
def saveStep (today : Nat) (fs2 : FileSys) (p : Nat × DayStats) : FileSys :=
  if ((fs2.lookup p.1).isSome : Prop) ∧ p.1 ≠ today then fs2
  else if p.1 = today ∨ ((fs2.lookup p.1).isNone : Prop) then
    fsWrite fs2 p.1 (saveDayRecord p.1 p.2)
  else fs2

/-- The function `save_daily_data` (lines 201-219): the loop body applied to every
aggregated day in order. -/
def saveDailyData (today : Nat) (ds : DailyStats) (fs : FileSys) : FileSys :=
  ds.foldl (saveStep today) fs

/-! ### File counting of the two report generators

`generate_json_report` (line 567) counts `data_dir.glob("*.json")` with no
exclusion, while `generate_report` (line 230) filters `report.json` out of
the same glob.  The directory listing is a list of file names, each a list
of characters; `nameEndsWith f s` is the suffix test behind the `*.json`
glob. -/

def leadMatches : List Char → List Char → Bool
  | [], _ => true
  | _ :: _, [] => false
  | c :: cs, d :: ds2 => c = d && leadMatches cs ds2

def nameEndsWith (f s : List Char) : Bool := leadMatches s.reverse f.reverse

/-- Line 567 and the summary at line 572: `total_days = len(json_files)`
over every `*.json` file, `report.json` included. -/
def jsonReportTotalDays (files : List (List Char)) : Nat :=
  (files.filter (fun f => nameEndsWith f ((".json").toList))).length

/-- Line 230: the day files the Markdown report reads — the same glob with
`report.json` excluded; line 257 reports their number. -/
def markdownDayFiles (files : List (List Char)) : List (List Char) :=
  files.filter (fun f =>
    nameEndsWith f ((".json").toList) && f ≠ (("report.json").toList))

/-! ## Theorems -/

theorem sessionScan_fst (e n : Nat) (l : List Nat) :
    (sessionScan e n l).1 = (l.takeWhile (fun t => t < e)).map (fun t => (t, n)) := by
  induction l with
  | nil => rfl
  | cons t rest ih =>
    simp only [sessionScan, List.takeWhile_cons]
    by_cases h : t < e
    · simp [h, ih]
    · simp [h]

theorem sessionScan_snd (e n : Nat) (l : List Nat) :
    (sessionScan e n l).2 = l.dropWhile (fun t => t < e) := by
  induction l with
  | nil => rfl
  | cons t rest ih =>
    simp only [sessionScan, List.dropWhile_cons]
    by_cases h : t < e
    · simp [h, ih]
    · simp [h]

theorem sessionLoop_nil (n : Nat) : sessionLoop n [] = [] := by
  rw [sessionLoop]

/-- Rewriting form of one iteration of the outer loop. -/
theorem sessionLoop_cons (n t : Nat) (rest : List Nat) :
    sessionLoop n (t :: rest) =
      ((t :: rest).takeWhile (fun x => x < t + 5)).map (fun x => (x, n)) ++
        sessionLoop (n + 1) ((t :: rest).dropWhile (fun x => x < t + 5)) := by
  rw [sessionLoop, sessionScan_fst, sessionScan_snd]
  by_cases h : (t :: rest).dropWhile (fun x => x < t + 5) = []
  · rw [if_pos h, h, sessionLoop_nil]
  · rw [if_neg h]

theorem sessionStarts_nil : sessionStarts [] = [] := by
  rw [sessionStarts]

theorem sessionStarts_cons (t : Nat) (rest : List Nat) :
    sessionStarts (t :: rest) = t :: sessionStarts (rest.dropWhile (fun x => x < t + 5)) := by
  rw [sessionStarts]

theorem sessionStarts_head? (l : List Nat) : (sessionStarts l).head? = l.head? := by
  cases l with
  | nil => rw [sessionStarts_nil]
  | cons t rest => rw [sessionStarts_cons]; rfl

theorem mem_sessionStarts (l : List Nat) : ∀ s ∈ sessionStarts l, s ∈ l := by
  induction l using sessionStarts.induct with
  | case1 => intro s hs; rw [sessionStarts_nil] at hs; cases hs
  | case2 t rest ih =>
    intro s hs
    rw [sessionStarts_cons] at hs
    rcases List.mem_cons.mp hs with h | h
    · exact h ▸ List.mem_cons_self _ _
    · exact List.mem_cons_of_mem _ ((List.dropWhile_sublist _).mem (ih s h))

theorem head?_dropWhile_false {p : Nat → Bool} {l : List Nat} {y : Nat}
    (h : (l.dropWhile p).head? = some y) : p y = false := by
  have := List.head?_dropWhile_not p l
  rw [h] at this
  exact this

/-- Sorted lists stay sorted after `dropWhile`. -/
theorem sorted_dropWhile {l : List Nat} (hs : List.Sorted (· ≤ ·) l) (p : Nat → Bool) :
    List.Sorted (· ≤ ·) (l.dropWhile p) :=
  List.Pairwise.sublist (List.dropWhile_sublist p) hs

/-- Consecutive session starts are at least 5 hours apart: a session opens
only at the first point at or beyond the previous window's end. -/
theorem sessionStarts_chain {l : List Nat} (hs : List.Sorted (· ≤ ·) l) :
    List.Chain' (fun a b => a + 5 ≤ b) (sessionStarts l) := by
  induction l using sessionStarts.induct with
  | case1 => simp [sessionStarts_nil]
  | case2 t rest ih =>
    rw [sessionStarts_cons]
    rw [List.chain'_cons']
    constructor
    · intro y hy
      rw [sessionStarts_head?] at hy
      have hfalse : (fun x => decide (x < t + 5)) y = false :=
        head?_dropWhile_false (Option.mem_def.mp hy)
      simp only [decide_eq_false_iff_not, not_lt] at hfalse
      exact hfalse
    · exact ih (sorted_dropWhile (List.Sorted.of_cons hs) _)

theorem sessionStarts_pairwise {l : List Nat} (hs : List.Sorted (· ≤ ·) l) :
    List.Pairwise (fun a b => a + 5 ≤ b) (sessionStarts l) := by
  haveI : IsTrans Nat (fun a b => a + 5 ≤ b) := ⟨fun a b c hab hbc => by omega⟩
  exact List.chain'_iff_pairwise.mp (sessionStarts_chain hs)

theorem takeWhile_cons_window (t : Nat) (rest : List Nat) :
    (t :: rest).takeWhile (fun x => x < t + 5) = t :: rest.takeWhile (fun x => x < t + 5) := by
  rw [List.takeWhile_cons, if_pos (by simp)]

theorem dropWhile_cons_window (t : Nat) (rest : List Nat) :
    (t :: rest).dropWhile (fun x => x < t + 5) = rest.dropWhile (fun x => x < t + 5) := by
  rw [List.dropWhile_cons, if_pos (by simp)]

/-- The loop consumes every activity point exactly once, in order: the first
components of the produced assignment are the input list itself. -/
theorem sessionLoop_map_fst : ∀ (n : Nat) (l : List Nat), (sessionLoop n l).map Prod.fst = l := by
  intro n l
  induction l using sessionStarts.induct generalizing n with
  | case1 => rw [sessionLoop_nil]; rfl
  | case2 t rest ih =>
    rw [sessionLoop_cons, takeWhile_cons_window, dropWhile_cons_window, List.map_append,
      List.map_map]
    have h1 : (Prod.fst ∘ fun x => (x, n)) = fun x : Nat => x := rfl
    rw [h1, List.map_id', ih]
    rw [List.cons_append, List.takeWhile_append_dropWhile]

/-- Every produced assignment lies in the window of its session: a point
assigned id `n + k` sits in `[s, s + 5)` where `s` is the `k`-th session
start. -/
theorem sessionLoop_assign {l : List Nat} (hs : List.Sorted (· ≤ ·) l) :
    ∀ n x m, (x, m) ∈ sessionLoop n l →
      ∃ k s, (sessionStarts l)[k]? = some s ∧ m = n + k ∧ s ≤ x ∧ x < s + 5 := by
  induction l using sessionStarts.induct with
  | case1 => intro n x m hm; rw [sessionLoop_nil] at hm; cases hm
  | case2 t rest ih =>
    intro n x m hm
    rw [sessionLoop_cons, takeWhile_cons_window, dropWhile_cons_window] at hm
    rcases List.mem_append.mp hm with h | h
    · rcases List.mem_map.mp h with ⟨y, hy, heq⟩
      have hyx : y = x := congrArg Prod.fst heq
      have hnm : n = m := congrArg Prod.snd heq
      subst hyx; subst hnm
      refine ⟨0, t, by rw [sessionStarts_cons]; simp, by omega, ?_, ?_⟩
      · rcases List.mem_cons.mp hy with h0 | h0
        · omega
        · have : y ∈ rest := (List.takeWhile_sublist _).mem h0
          exact (List.sorted_cons.mp hs).1 y this
      · rcases List.mem_cons.mp hy with h0 | h0
        · omega
        · exact of_decide_eq_true
            (List.mem_takeWhile_imp (p := fun x => decide (x < t + 5)) h0)
    · obtain ⟨k, s, hks, hm', h1, h2⟩ :=
        ih (sorted_dropWhile (List.Sorted.of_cons hs) _) (n + 1) x m h
      refine ⟨k + 1, s, ?_, by omega, h1, h2⟩
      rw [sessionStarts_cons]
      simpa using hks

/-- Every session id in range is actually used: the `k`-th session start is
assigned id `n + k`. -/
theorem sessionStarts_mem_assign :
    ∀ (n : Nat) (l : List Nat) (k s : Nat), (sessionStarts l)[k]? = some s →
      (s, n + k) ∈ sessionLoop n l := by
  intro n l
  induction l using sessionStarts.induct generalizing n with
  | case1 => intro k s hk; rw [sessionStarts_nil] at hk; simp at hk
  | case2 t rest ih =>
    intro k s hk
    rw [sessionStarts_cons] at hk
    rw [sessionLoop_cons, takeWhile_cons_window, dropWhile_cons_window]
    cases k with
    | zero =>
      apply List.mem_append_left
      have hst : s = t := by simp at hk; omega
      subst hst
      exact List.mem_map.mpr ⟨s, List.mem_cons_self _ _, by simp⟩
    | succ k =>
      apply List.mem_append_right
      have hk' : (sessionStarts (rest.dropWhile (fun x => x < t + 5)))[k]? = some s := by
        rw [List.getElem?_cons_succ] at hk; exact hk
      have := ih (n + 1) k s hk'
      have harith : n + 1 + k = n + (k + 1) := by omega
      rw [harith] at this
      exact this

/-- Session ids never fall below the running counter. -/
theorem sessionLoop_snd_ge : ∀ (n : Nat) (l : List Nat) (x m : Nat),
    (x, m) ∈ sessionLoop n l → n ≤ m := by
  intro n l
  induction l using sessionStarts.induct generalizing n with
  | case1 => intro x m hm; rw [sessionLoop_nil] at hm; cases hm
  | case2 t rest ih =>
    intro x m hm
    rw [sessionLoop_cons, takeWhile_cons_window, dropWhile_cons_window] at hm
    rcases List.mem_append.mp hm with h | h
    · rcases List.mem_map.mp h with ⟨y, _, heq⟩
      have : n = m := congrArg Prod.snd heq
      omega
    · have := ih (n + 1) x m h
      omega

theorem pairwise_le_map_const (n : Nat) (l : List Nat) :
    List.Pairwise (· ≤ ·) (l.map fun _ => n) := by
  induction l with
  | nil => simp
  | cons a l ih =>
    rw [List.map_cons, List.pairwise_cons]
    refine ⟨fun b hb => ?_, ih⟩
    rcases List.mem_map.mp hb with ⟨y, _, hy⟩
    omega

/-- The assigned session ids are nondecreasing along the pass. -/
theorem sessionLoop_snd_sorted : ∀ (n : Nat) (l : List Nat),
    List.Sorted (· ≤ ·) ((sessionLoop n l).map Prod.snd) := by
  intro n l
  induction l using sessionStarts.induct generalizing n with
  | case1 => rw [sessionLoop_nil]; simp
  | case2 t rest ih =>
    rw [sessionLoop_cons, takeWhile_cons_window, dropWhile_cons_window, List.map_append]
    rw [List.Sorted, List.pairwise_append]
    refine ⟨?_, ih (n + 1), ?_⟩
    · rw [List.map_map]
      have h1 : (Prod.snd ∘ fun x : Nat => (x, n)) = fun _ : Nat => n := rfl
      rw [h1]
      exact pairwise_le_map_const n _
    · intro a ha b hb
      rcases List.mem_map.mp ha with ⟨p, hp, hpa⟩
      rcases List.mem_map.mp hp with ⟨y, _, hyp⟩
      have han : a = n := by rw [← hpa, ← hyp]
      rcases List.mem_map.mp hb with ⟨q, hq, hqb⟩
      have hbn : n + 1 ≤ q.2 :=
        sessionLoop_snd_ge (n + 1) _ q.1 q.2 (by simpa using hq)
      omega

theorem sorted_head?_le {l : List Nat} (hs : List.Sorted (· ≤ ·) l) {h0 x : Nat}
    (hh : l.head? = some h0) (hx : x ∈ l) : h0 ≤ x := by
  cases l with
  | nil => cases hx
  | cons a l =>
    have ha : a = h0 := by simpa using hh
    subst ha
    rcases List.mem_cons.mp hx with h | h
    · omega
    · exact (List.sorted_cons.mp hs).1 x h

/-- Session starts that come later in the pass are at least 5 hours after
every earlier start, transitively. -/
theorem sessionStarts_rel_of_lt {l : List Nat} (hs : List.Sorted (· ≤ ·) l)
    {i j a b : Nat} (hij : i < j) (hi : (sessionStarts l)[i]? = some a)
    (hj : (sessionStarts l)[j]? = some b) : a + 5 ≤ b := by
  have hp := sessionStarts_pairwise hs
  rw [List.pairwise_iff_get] at hp
  obtain ⟨hia, hia2⟩ := List.getElem?_eq_some.mp hi
  obtain ⟨hja, hja2⟩ := List.getElem?_eq_some.mp hj
  have := hp ⟨i, hia⟩ ⟨j, hja⟩ hij
  simpa [List.get_eq_getElem, hia2, hja2] using this

/-- At most one session window can contain a given instant: the windows of
distinct sessions are disjoint. -/
theorem sessionStarts_window_unique {l : List Nat} (hs : List.Sorted (· ≤ ·) l)
    {k1 k2 s1 s2 x : Nat} (h1 : (sessionStarts l)[k1]? = some s1)
    (h2 : (sessionStarts l)[k2]? = some s2) (ha1 : s1 ≤ x) (hb1 : x < s1 + 5)
    (ha2 : s2 ≤ x) (hb2 : x < s2 + 5) : k1 = k2 := by
  rcases Nat.lt_trichotomy k1 k2 with h | h | h
  · have := sessionStarts_rel_of_lt hs h h1 h2
    omega
  · exact h
  · have := sessionStarts_rel_of_lt hs h h2 h1
    omega

/-- The start of the next session is the first activity point at or after
the end of the current session's window. -/
theorem sessionStarts_succ_min {l : List Nat} (hs : List.Sorted (· ≤ ·) l) :
    ∀ k a b, (sessionStarts l)[k]? = some a → (sessionStarts l)[k + 1]? = some b →
      b ∈ l ∧ a + 5 ≤ b ∧ ∀ x ∈ l, a + 5 ≤ x → b ≤ x := by
  induction l using sessionStarts.induct with
  | case1 => intro k a b ha hb; rw [sessionStarts_nil] at ha; simp at ha
  | case2 t rest ih =>
    intro k a b ha hb
    rw [sessionStarts_cons] at ha hb
    have hsR : List.Sorted (· ≤ ·) (rest.dropWhile (fun x => x < t + 5)) :=
      sorted_dropWhile (List.Sorted.of_cons hs) _
    have hsplit : rest.takeWhile (fun x => x < t + 5) ++
        rest.dropWhile (fun x => x < t + 5) = rest :=
      List.takeWhile_append_dropWhile _ _
    cases k with
    | zero =>
      have hat : a = t := by simp at ha; omega
      rw [List.getElem?_cons_succ] at hb
      have hbR : (rest.dropWhile (fun x => x < t + 5)).head? = some b := by
        rw [← sessionStarts_head?, List.head?_eq_getElem?]
        exact hb
      have hbmem : b ∈ rest.dropWhile (fun x => x < t + 5) := by
        cases hR : rest.dropWhile (fun x => x < t + 5) with
        | nil => rw [hR] at hbR; cases hbR
        | cons r0 R =>
          rw [hR] at hbR
          have : r0 = b := by simpa using hbR
          exact this ▸ (hR ▸ List.mem_cons_self r0 R)
      have hb5 : a + 5 ≤ b := by
        have := head?_dropWhile_false hbR
        simp at this
        omega
      refine ⟨List.mem_cons_of_mem _ ((List.dropWhile_sublist _).mem hbmem), hb5, ?_⟩
      intro x hx hax
      rcases List.mem_cons.mp hx with h | h
      · omega
      · rcases List.mem_append.mp (hsplit ▸ h) with h' | h'
        · have := of_decide_eq_true
            (List.mem_takeWhile_imp (p := fun x => decide (x < t + 5)) h')
          omega
        · exact sorted_head?_le hsR hbR h'
    | succ k =>
      rw [List.getElem?_cons_succ] at ha hb
      obtain ⟨hbmem, hab, hmin⟩ := ih hsR k a b ha hb
      have hta : t + 5 ≤ a := by
        have h0 : (sessionStarts (t :: rest))[0]? = some t := by
          rw [sessionStarts_cons]; simp
        have hka : (sessionStarts (t :: rest))[k + 1]? = some a := by
          rw [sessionStarts_cons, List.getElem?_cons_succ]; exact ha
        exact sessionStarts_rel_of_lt hs (Nat.succ_pos k) h0 hka
      refine ⟨List.mem_cons_of_mem _ ((List.dropWhile_sublist _).mem hbmem), hab, ?_⟩
      intro x hx hax
      rcases List.mem_cons.mp hx with h | h
      · omega
      · rcases List.mem_append.mp (hsplit ▸ h) with h' | h'
        · have := of_decide_eq_true
            (List.mem_takeWhile_imp (p := fun x => decide (x < t + 5)) h')
          omega
        · exact hmin x h' hax

/-- Conversely to `sessionLoop_assign`, a point inside the `k`-th window is
assigned exactly the id `n + k`. -/
theorem sessionLoop_assign_of_window {l : List Nat} (hs : List.Sorted (· ≤ ·) l)
    {n x k s : Nat} (hx : x ∈ l) (hk : (sessionStarts l)[k]? = some s)
    (h1 : s ≤ x) (h2 : x < s + 5) : (x, n + k) ∈ sessionLoop n l := by
  have hx' : x ∈ (sessionLoop n l).map Prod.fst := by
    rw [sessionLoop_map_fst]; exact hx
  rcases List.mem_map.mp hx' with ⟨p, hp, hpx⟩
  obtain ⟨k', s', hk', hm', h1', h2'⟩ :=
    sessionLoop_assign hs n p.1 p.2 (by simpa using hp)
  have hxp : p.1 = x := hpx
  have hkk : k' = k :=
    sessionStarts_window_unique hs hk' hk (hxp ▸ h1') (hxp ▸ h2') h1 h2
  have : p = (x, n + k) := by
    rcases p with ⟨p1, p2⟩
    simp only [Prod.mk.injEq]
    constructor
    · exact hpx
    · omega
  exact this ▸ hp

theorem sessionScanFull_snd (e n : Nat) (l : List TimePoint) :
    ∀ ds, (sessionScanFull e n l ds).2 = l.dropWhile (fun p => p.dt < e) := by
  induction l with
  | nil => intro ds; rfl
  | cons p rest ih =>
    intro ds
    simp only [sessionScanFull, List.dropWhile_cons]
    by_cases h : p.dt < e
    · simp [h, ih]
    · simp [h]

theorem insertPoint_length (x : TimePoint) (l : List TimePoint) :
    (insertPoint x l).length = l.length + 1 := by
  induction l with
  | nil => rfl
  | cons y ys ih =>
    rw [insertPoint]
    by_cases h : tpLT x y
    · simp [h]
    · simp [h, ih]

theorem sortPoints_length (l : List TimePoint) : (sortPoints l).length = l.length := by
  suffices h : ∀ acc : List TimePoint,
      (l.foldl (fun acc x => insertPoint x acc) acc).length = l.length + acc.length by
    simpa using h []
  induction l with
  | nil => intro acc; simp
  | cons y ys ih =>
    intro acc
    simp only [List.foldl_cons, List.length_cons]
    rw [ih (insertPoint y acc), insertPoint_length]
    omega

theorem sortPoints_eq_nil_iff (l : List TimePoint) : sortPoints l = [] ↔ l = [] := by
  constructor
  · intro h
    have := sortPoints_length l
    rw [h] at this
    exact List.length_eq_zero.mp this.symm
  · intro h; rw [h]; rfl

theorem dictInsert_lookup_isSome {m : List (Nat × Nat)} {k2 : Nat} (k v : Nat)
    (h : ((m.lookup k2).isSome : Prop)) : (((dictInsert m k v).lookup k2).isSome : Prop) := by
  induction m with
  | nil => simp [List.lookup] at h
  | cons kv rest ih =>
    rcases kv with ⟨k1, v1⟩
    rw [dictInsert]
    by_cases hk : k1 = k
    · rw [if_pos hk]
      rw [List.lookup_cons] at h ⊢
      by_cases h2 : k2 = k
      · rw [beq_iff_eq.mpr h2]
        simp
      · rw [beq_eq_false_iff_ne.mpr h2]
        rw [beq_eq_false_iff_ne.mpr (fun heq => h2 (heq.trans hk))] at h
        exact h
    · rw [if_neg hk]
      rw [List.lookup_cons] at h ⊢
      by_cases h2 : k2 = k1
      · rw [beq_iff_eq.mpr h2] at h ⊢
        simp
      · rw [beq_eq_false_iff_ne.mpr h2] at h ⊢
        exact ih h

theorem setSession_sessionsComplete {ds : DailyStats}
    (h : ∀ p ∈ ds, sessionsComplete p.2) (day hour snum : Nat) :
    ∀ p ∈ setSession ds day hour snum, sessionsComplete p.2 := by
  intro p hp
  rcases List.mem_map.mp hp with ⟨q, hq, hqp⟩
  by_cases hd : q.1 = day
  · obtain ⟨m, hm, hmk⟩ := h q hq
    rw [if_pos hd] at hqp
    refine ⟨dictInsert m hour snum, ?_, ?_⟩
    · rw [← hqp]
      simp [hm]
    · intro h2 hh2
      exact dictInsert_lookup_isSome hour snum (hmk h2 hh2)
  · rw [if_neg hd] at hqp
    exact hqp ▸ h q hq

theorem sessionScanFull_fst_complete (e n : Nat) (l : List TimePoint) :
    ∀ ds, (∀ p ∈ ds, sessionsComplete p.2) →
      ∀ q ∈ (sessionScanFull e n l ds).1, sessionsComplete q.2 := by
  induction l with
  | nil => intro ds h q hq; exact h q hq
  | cons p rest ih =>
    intro ds h q hq
    rw [sessionScanFull] at hq
    by_cases hlt : p.dt < e
    · rw [if_pos hlt] at hq
      exact ih _ (setSession_sessionsComplete h p.day p.hour n) q hq
    · rw [if_neg hlt] at hq
      exact h q hq

theorem sessionLoopFull_complete : ∀ (n : Nat) (tps : List TimePoint) (ds : DailyStats),
    (∀ p ∈ ds, sessionsComplete p.2) → ∀ q ∈ sessionLoopFull n tps ds, sessionsComplete q.2 := by
  intro n tps ds
  induction n, tps, ds using sessionLoopFull.induct with
  | case1 n ds => intro h q hq; rw [sessionLoopFull] at hq; exact h q hq
  | case2 n ds p rest hnil =>
    intro h q hq
    rw [sessionLoopFull, if_pos hnil] at hq
    exact sessionScanFull_fst_complete _ _ _ ds h q hq
  | case3 n ds p rest hnil ih =>
    intro h q hq
    rw [sessionLoopFull, if_neg hnil] at hq
    exact ih (sessionScanFull_fst_complete _ _ _ ds h) q hq

theorem initSessions_complete (ds : DailyStats) :
    ∀ p ∈ initSessions ds, sessionsComplete p.2 := by
  intro p hp
  rcases List.mem_map.mp hp with ⟨q, _, hqp⟩
  refine ⟨(List.range 24).map (fun h => (h, 0)), ?_, ?_⟩
  · rw [← hqp]
  · intro h hh
    revert hh
    revert h
    decide

theorem analyzeSessions_complete {ds : DailyStats} (h : timePoints ds ≠ []) :
    ∀ p ∈ analyzeSessions ds, sessionsComplete p.2 := by
  rw [analyzeSessions]
  rw [if_neg (fun hc => h ((sortPoints_eq_nil_iff _).mp hc))]
  exact sessionLoopFull_complete 1 _ _ (initSessions_complete ds)

theorem setSession_map_fst (ds : DailyStats) (day hour snum : Nat) :
    (setSession ds day hour snum).map Prod.fst = ds.map Prod.fst := by
  rw [setSession, List.map_map]
  apply List.map_congr_left
  intro p _
  by_cases h : p.1 = day
  · simp [h]
  · simp [h]

theorem sessionScanFull_map_fst (e n : Nat) (l : List TimePoint) :
    ∀ ds, ((sessionScanFull e n l ds).1).map Prod.fst = ds.map Prod.fst := by
  induction l with
  | nil => intro ds; rfl
  | cons p rest ih =>
    intro ds
    rw [sessionScanFull]
    by_cases h : p.dt < e
    · rw [if_pos h, ih, setSession_map_fst]
    · rw [if_neg h]

theorem sessionLoopFull_map_fst : ∀ (n : Nat) (tps : List TimePoint) (ds : DailyStats),
    (sessionLoopFull n tps ds).map Prod.fst = ds.map Prod.fst := by
  intro n tps ds
  induction n, tps, ds using sessionLoopFull.induct with
  | case1 n ds => rw [sessionLoopFull]
  | case2 n ds p rest hnil =>
    rw [sessionLoopFull, if_pos hnil, sessionScanFull_map_fst]
  | case3 n ds p rest hnil ih =>
    rw [sessionLoopFull, if_neg hnil, ih, sessionScanFull_map_fst]

theorem initSessions_map_fst (ds : DailyStats) :
    (initSessions ds).map Prod.fst = ds.map Prod.fst := by
  rw [initSessions, List.map_map]
  rfl

/-- The pass neither adds nor removes days: the output lists exactly the
input days, in order. -/
theorem analyzeSessions_map_fst (ds : DailyStats) :
    (analyzeSessions ds).map Prod.fst = ds.map Prod.fst := by
  rw [analyzeSessions]
  by_cases h : sortPoints (timePoints ds) = []
  · rw [if_pos h]
  · rw [if_neg h, sessionLoopFull_map_fst, initSessions_map_fst]

theorem insertPair_append (x : Nat × Nat) (l : List (Nat × Nat))
    (h : ∀ y ∈ l, pairLT x y = false) : insertPair x l = l ++ [x] := by
  induction l with
  | nil => rfl
  | cons y ys ih =>
    rw [insertPair, if_neg (by rw [h y (List.mem_cons_self _ _)]; simp)]
    rw [ih (fun z hz => h z (List.mem_cons_of_mem _ hz))]
    rfl

/-- Sorting a list whose hours already strictly increase is the identity:
this is why the `active_sessions.sort()` of the source never reorders. -/
theorem sortActive_of_pairwise_fst {l : List (Nat × Nat)}
    (h : List.Pairwise (fun a b => a.1 < b.1) l) : sortActive l = l := by
  suffices key : ∀ (l acc : List (Nat × Nat)), List.Pairwise (fun a b => a.1 < b.1) l →
      (∀ x ∈ l, ∀ y ∈ acc, pairLT x y = false) →
      l.foldl (fun acc x => insertPair x acc) acc = acc ++ l by
    simpa using key l [] h (by simp)
  intro l
  induction l with
  | nil => intro acc _ _; simp
  | cons x rest ih =>
    intro acc hp hno
    simp only [List.foldl_cons]
    rw [insertPair_append x acc (hno x (List.mem_cons_self _ _))]
    rw [ih (acc ++ [x]) (List.Pairwise.of_cons hp) ?_]
    · simp
    · intro z hz y hy
      rcases List.mem_append.mp hy with h1 | h1
      · exact hno z (List.mem_cons_of_mem _ hz) y h1
      · have hxz : x.1 < z.1 := (List.pairwise_cons.mp hp).1 z hz
        have hyx : y = x := by simpa using h1
        subst hyx
        simp only [pairLT, decide_eq_false_iff_not]
        omega

theorem activeSessions_pairwise_fst (hourly sessions : List (Nat × Nat)) :
    List.Pairwise (fun a b : Nat × Nat => a.1 < b.1) (activeSessions hourly sessions) := by
  rw [activeSessions, List.pairwise_filterMap]
  apply List.Pairwise.imp ?_ (List.pairwise_lt_range 24)
  intro a b hab x hx y hy
  by_cases ha : activeAt hourly sessions a
  · rw [if_pos ha] at hx
    by_cases hb : activeAt hourly sessions b
    · rw [if_pos hb] at hy
      have hxa : x.1 = a := by cases hx; rfl
      have hyb : y.1 = b := by cases hy; rfl
      omega
    · rw [if_neg hb] at hy; cases hy
  · rw [if_neg ha] at hx; cases hx

theorem filterMap_range_getLast {P : Nat → Prop} [DecidablePred P] (g : Nat → Nat)
    (hmax : Nat) : ∀ n, hmax < n → P hmax → (∀ h, h < n → P h → h ≤ hmax) →
    ((List.range n).filterMap (fun h => if P h then some (h, g h) else none)).getLast?
      = some (hmax, g hmax) := by
  intro n
  induction n with
  | zero => intro h1; omega
  | succ n ih =>
    intro h1 h2 h3
    rw [List.range_succ, List.filterMap_append]
    by_cases hn : hmax = n
    · subst hn
      rw [show List.filterMap (fun h => if P h then some (h, g h) else none) [hmax]
          = [(hmax, g hmax)] from by simp [h2]]
      exact List.getLast?_concat _
    · have hPn : ¬ P n := fun hP => by have := h3 n (by omega) hP; omega
      rw [show List.filterMap (fun h => if P h then some (h, g h) else none) [n]
          = [] from by simp [hPn]]
      rw [List.append_nil]
      exact ih (by omega) h2 (fun h hh hP => h3 h (by omega) hP)

theorem filterMap_range_nil {P : Nat → Prop} [DecidablePred P] (g : Nat → Nat)
    (n : Nat) (h : ∀ h2, h2 < n → ¬ P h2) :
    (List.range n).filterMap (fun h => if P h then some (h, g h) else none) = [] := by
  rw [List.filterMap_eq_nil_iff]
  intro a ha
  rw [if_neg (h a (List.mem_range.mp ha))]

theorem foldl_startHour_none (sessions : List (Nat × Nat)) (snum : Nat) :
    ∀ n, (∀ h, h < n → lookupD sessions h 0 ≠ snum) →
      (List.range n).foldl (startHourStep sessions snum) none = none := by
  intro n
  induction n with
  | zero => intro _; rfl
  | succ n ih =>
    intro h
    rw [List.range_succ, List.foldl_append, ih (fun h2 hh2 => h h2 (by omega))]
    simp only [List.foldl_cons, List.foldl_nil, startHourStep]
    rw [if_neg (h n (by omega))]

theorem foldl_startHour_min (sessions : List (Nat × Nat)) (snum sh : Nat) :
    ∀ n, sh < n → lookupD sessions sh 0 = snum →
      (∀ h, h < n → lookupD sessions h 0 = snum → sh ≤ h) →
      (List.range n).foldl (startHourStep sessions snum) none = some sh := by
  intro n
  induction n with
  | zero => intro h1; omega
  | succ n ih =>
    intro h1 h2 h3
    rw [List.range_succ, List.foldl_append]
    simp only [List.foldl_cons, List.foldl_nil]
    by_cases hn : sh = n
    · subst hn
      rw [foldl_startHour_none sessions snum sh
        (fun h hh heq => by have := h3 h (by omega) heq; omega)]
      simp only [startHourStep]
      rw [if_pos h2]
    · have hlt : sh < n := by omega
      rw [ih hlt h2 (fun h hh heq => h3 h (by omega) heq)]
      simp only [startHourStep]
      by_cases hc : lookupD sessions n 0 = snum
      · rw [if_pos hc]
        have : ¬ n < sh := by omega
        simp [this]
      · rw [if_neg hc]

/-- The earliest assigned hour returned by the loop of lines 658-663 is the
minimum hour (below 24) carrying the searched session id. -/
theorem sessionStartHour_eq_min {sessions : List (Nat × Nat)} {snum sh : Nat}
    (h1 : sh < 24) (h2 : lookupD sessions sh 0 = snum)
    (h3 : ∀ h, h < 24 → lookupD sessions h 0 = snum → sh ≤ h) :
    sessionStartHour sessions snum = some sh :=
  foldl_startHour_min sessions snum sh 24 h1 h2 h3

/-- Characterization of the forecast: with `hmax` the latest active hour of
the day and `sh` the earliest hour carrying the session id of `hmax`, the
prediction is `sh + 5`, wrapped past midnight onto the next day. -/
theorem predictedNextSession_spec (d : Nat) (hourly sessions : List (Nat × Nat))
    (hmax sh : Nat) (h1 : hmax < 24) (h2 : activeAt hourly sessions hmax)
    (h3 : ∀ h, h < 24 → activeAt hourly sessions h → h ≤ hmax)
    (h4 : sh < 24) (h5 : lookupD sessions sh 0 = lookupD sessions hmax 0)
    (h6 : ∀ h, h < 24 → lookupD sessions h 0 = lookupD sessions hmax 0 → sh ≤ h) :
    predictedNextSession d hourly sessions =
      if sh + 5 ≥ 24 then some (d + 1, (sh + 5) % 24) else some (d, sh + 5) := by
  rw [predictedNextSession, sortActive_of_pairwise_fst (activeSessions_pairwise_fst _ _)]
  rw [show activeSessions hourly sessions
      = (List.range 24).filterMap
          (fun h => if activeAt hourly sessions h
            then some (h, lookupD sessions h 0) else none) from rfl]
  rw [filterMap_range_getLast (fun h => lookupD sessions h 0) hmax 24 h1 h2 h3]
  show (match sessionStartHour sessions (lookupD sessions hmax 0) with
    | none => none
    | some sh2 =>
      if sh2 + 5 ≥ 24 then some (d + 1, (sh2 + 5) % 24) else some (d, sh2 + 5)) = _
  rw [sessionStartHour_eq_min h4 h5 h6]

/-- When no hour of the most recent day is active, no forecast is produced. -/
theorem predictedNextSession_none (d : Nat) (hourly sessions : List (Nat × Nat))
    (h : ∀ h2, h2 < 24 → ¬ activeAt hourly sessions h2) :
    predictedNextSession d hourly sessions = none := by
  rw [predictedNextSession, sortActive_of_pairwise_fst (activeSessions_pairwise_fst _ _)]
  rw [show activeSessions hourly sessions
      = (List.range 24).filterMap
          (fun h => if activeAt hourly sessions h
            then some (h, lookupD sessions h 0) else none) from rfl]
  rw [filterMap_range_nil (fun h => lookupD sessions h 0) 24 h]
  rfl

theorem natToString_inj24 : ∀ a, a < 24 → ∀ b, b < 24 →
    (toString a = toString b ↔ a = b) := by
  decide

/-- Looking a stringified hour key up in a stringified mapping is looking
the hour up in the original mapping, for in-range hours. -/
theorem lookup_map_toString (l : List (Nat × Nat)) (hk : ∀ p ∈ l, p.1 < 24)
    (h : Nat) (hh : h < 24) :
    (l.map (fun p => (toString p.1, p.2))).lookup (toString h) = l.lookup h := by
  induction l with
  | nil => rfl
  | cons kv rest ih =>
    rcases kv with ⟨k1, v1⟩
    rw [List.map_cons, List.lookup_cons, List.lookup_cons]
    have hk1 : k1 < 24 := hk (k1, v1) (List.mem_cons_self _ _)
    by_cases he : h = k1
    · rw [beq_iff_eq.mpr he,
        beq_iff_eq.mpr (show toString h = toString k1 from by rw [he])]
    · have hs : toString h ≠ toString k1 :=
        fun hc => he ((natToString_inj24 h hh k1 hk1).mp hc)
      rw [beq_eq_false_iff_ne.mpr hs, beq_eq_false_iff_ne.mpr he]
      exact ih (fun p hp => hk p (List.mem_cons_of_mem _ hp))

theorem fsWrite_lookup_self (fs : FileSys) (d : Nat) (c : PersistedDay) :
    (fsWrite fs d c).lookup d = some c := by
  induction fs with
  | nil => simp [fsWrite, List.lookup]
  | cons kv rest ih =>
    rw [fsWrite]
    by_cases h : kv.1 = d
    · rw [if_pos h, List.lookup_cons, beq_iff_eq.mpr rfl]
    · rw [if_neg h, List.lookup_cons, beq_eq_false_iff_ne.mpr (fun hc => h hc.symm)]
      exact ih

theorem fsWrite_lookup_other (fs : FileSys) {d d2 : Nat} (c : PersistedDay)
    (h : d2 ≠ d) : (fsWrite fs d c).lookup d2 = fs.lookup d2 := by
  induction fs with
  | nil => simp [fsWrite, List.lookup, beq_eq_false_iff_ne.mpr h]
  | cons kv rest ih =>
    rw [fsWrite]
    by_cases hk : kv.1 = d
    · rw [if_pos hk, List.lookup_cons, List.lookup_cons,
        beq_eq_false_iff_ne.mpr h, beq_eq_false_iff_ne.mpr (hk ▸ h)]
    · rw [if_neg hk, List.lookup_cons, List.lookup_cons]
      by_cases h2 : d2 = kv.1
      · rw [beq_iff_eq.mpr h2]
      · rw [beq_eq_false_iff_ne.mpr h2]
        exact ih

/-- A step on a day different from `d` does not change the file of `d`. -/
theorem saveStep_lookup_other (today : Nat) (fs2 : FileSys) (p : Nat × DayStats)
    {d : Nat} (hpd : p.1 ≠ d) : (saveStep today fs2 p).lookup d = fs2.lookup d := by
  rw [saveStep]
  by_cases h1 : ((fs2.lookup p.1).isSome : Prop) ∧ p.1 ≠ today
  · rw [if_pos h1]
  · rw [if_neg h1]
    by_cases h2 : p.1 = today ∨ ((fs2.lookup p.1).isNone : Prop)
    · rw [if_pos h2, fsWrite_lookup_other _ _ (fun hc => hpd hc.symm)]
    · rw [if_neg h2]

/-- A day mentioned by no aggregated record keeps its file untouched. -/
theorem saveDailyData_frame_nonmem (today : Nat) :
    ∀ (ds : DailyStats) (fs : FileSys) (d : Nat), (∀ p ∈ ds, p.1 ≠ d) →
      (saveDailyData today ds fs).lookup d = fs.lookup d := by
  intro ds
  induction ds with
  | nil => intro fs d _; rfl
  | cons p rest ih =>
    intro fs d hne
    rw [saveDailyData, List.foldl_cons]
    have hrest : ∀ q ∈ rest, q.1 ≠ d := fun q hq => hne q (List.mem_cons_of_mem _ hq)
    exact (ih (saveStep today fs p) d hrest).trans
      (saveStep_lookup_other today fs p (hne p (List.mem_cons_self _ _)))

/-- An existing file of a past day is never modified. -/
theorem saveDailyData_frame_past (today : Nat) :
    ∀ (ds : DailyStats) (fs : FileSys) (d : Nat), d ≠ today →
      ((fs.lookup d).isSome : Prop) →
      (saveDailyData today ds fs).lookup d = fs.lookup d := by
  intro ds
  induction ds with
  | nil => intro fs d _ _; rfl
  | cons p rest ih =>
    intro fs d hdt hsome
    rw [saveDailyData, List.foldl_cons]
    by_cases hpd : p.1 = d
    · have hstep : saveStep today fs p = fs := by
        rw [saveStep, if_pos ⟨by rw [hpd]; exact hsome, by rw [hpd]; exact hdt⟩]
      rw [hstep]
      exact ih fs d hdt hsome
    · have hstep := saveStep_lookup_other today fs p hpd
      have hsome2 : (((saveStep today fs p).lookup d).isSome : Prop) := by
        rw [hstep]; exact hsome
      exact (ih (saveStep today fs p) d hdt hsome2).trans hstep

/-- The record of today is (re)written whether or not its file exists. -/
theorem saveDailyData_today (today : Nat) :
    ∀ (ds : DailyStats) (fs : FileSys) (st : DayStats), (today, st) ∈ ds →
      (ds.map Prod.fst).Nodup →
      (saveDailyData today ds fs).lookup today = some (saveDayRecord today st) := by
  intro ds
  induction ds with
  | nil => intro fs st h; cases h
  | cons p rest ih =>
    intro fs st hmem hnd
    rw [saveDailyData, List.foldl_cons]
    rcases List.mem_cons.mp hmem with h | h
    · have hp1 : p.1 = today := by rw [← h]
      have hp2 : p.2 = st := by rw [← h]
      have hnotr : ∀ q ∈ rest, q.1 ≠ today := by
        intro q hq hc
        have := (List.pairwise_cons.mp hnd).1 q.1 (List.mem_map_of_mem Prod.fst hq)
        exact this (by rw [hp1, hc])
      have hstep : saveStep today fs p = fsWrite fs today (saveDayRecord today st) := by
        rw [saveStep, if_neg (fun hc => hc.2 hp1), if_pos (Or.inl hp1), hp1, hp2]
      rw [hstep]
      exact (saveDailyData_frame_nonmem today rest _ today hnotr).trans
        (fsWrite_lookup_self _ _ _)
    · have hp1 : p.1 ≠ today := by
        intro hc
        have := (List.pairwise_cons.mp hnd).1 today
          (List.mem_map_of_mem Prod.fst (show (today, st) ∈ rest from h))
        exact this hc
      exact ih (saveStep today fs p) st h ((List.pairwise_cons.mp hnd).2)

/-- A day with no file yet gets one, containing the serialized record. -/
theorem saveDailyData_creates (today : Nat) :
    ∀ (ds : DailyStats) (fs : FileSys) (d : Nat) (st : DayStats), (d, st) ∈ ds →
      fs.lookup d = none → (ds.map Prod.fst).Nodup →
      (saveDailyData today ds fs).lookup d = some (saveDayRecord d st) := by
  intro ds
  induction ds with
  | nil => intro fs d st h; cases h
  | cons p rest ih =>
    intro fs d st hmem hnone hnd
    rw [saveDailyData, List.foldl_cons]
    rcases List.mem_cons.mp hmem with h | h
    · have hp1 : p.1 = d := by rw [← h]
      have hp2 : p.2 = st := by rw [← h]
      have hnotr : ∀ q ∈ rest, q.1 ≠ d := by
        intro q hq hc
        have := (List.pairwise_cons.mp hnd).1 q.1 (List.mem_map_of_mem Prod.fst hq)
        exact this (by rw [hp1, hc])
      have hstep : saveStep today fs p = fsWrite fs d (saveDayRecord d st) := by
        have hfalse : ¬ (((fs.lookup p.1).isSome : Prop) ∧ p.1 ≠ today) := by
          intro hc
          rw [hp1, hnone] at hc
          simp at hc
        rw [saveStep, if_neg hfalse, if_pos (Or.inr (by rw [hp1, hnone]; rfl)), hp1, hp2]
      rw [hstep]
      exact (saveDailyData_frame_nonmem today rest _ d hnotr).trans
        (fsWrite_lookup_self _ _ _)
    · have hp1 : p.1 ≠ d := by
        intro hc
        have := (List.pairwise_cons.mp hnd).1 d
          (List.mem_map_of_mem Prod.fst (show (d, st) ∈ rest from h))
        exact this hc
      have hnone2 : (saveStep today fs p).lookup d = none := by
        rw [saveStep_lookup_other today fs p hp1]; exact hnone
      exact ih (saveStep today fs p) d st h hnone2 ((List.pairwise_cons.mp hnd).2)

/-! ## Claims -/

/-- C1: on every non-empty sorted list of activity points the session
assignment is a single greedy pass — (1) every point is consumed exactly
once, in order; (2) the first session starts at the first point; (3) every
point assigned id `1 + k` lies in the `k`-th window `[startₖ, startₖ + 5)`
(exclusive upper bound) and (4) conversely every point strictly before the
window end receives the current id; (5) when points remain at or after the
window end, the next session starts at the first such point and (by (3) and
(4)) carries an id larger by exactly 1; when none remain the pass stops,
having consumed everything — which is (1). -/
theorem C1_greedy_single_pass (ts : List Nat) (_hne : ts ≠ [])
    (hs : List.Sorted (· ≤ ·) ts) :
    ((sessionLoop 1 ts).map Prod.fst = ts) ∧
    ((sessionStarts ts).head? = ts.head?) ∧
    (∀ x m, (x, m) ∈ sessionLoop 1 ts →
      ∃ k s, (sessionStarts ts)[k]? = some s ∧ m = 1 + k ∧ s ≤ x ∧ x < s + 5) ∧
    (∀ x k s, x ∈ ts → (sessionStarts ts)[k]? = some s → s ≤ x → x < s + 5 →
      (x, 1 + k) ∈ sessionLoop 1 ts) ∧
    (∀ k a b, (sessionStarts ts)[k]? = some a → (sessionStarts ts)[k + 1]? = some b →
      b ∈ ts ∧ a + 5 ≤ b ∧ ∀ x ∈ ts, a + 5 ≤ x → b ≤ x) := by
  refine ⟨sessionLoop_map_fst 1 ts, sessionStarts_head? ts, ?_, ?_, ?_⟩
  · intro x m hm
    obtain ⟨k, s, hk, hm', h1, h2⟩ := sessionLoop_assign hs 1 x m hm
    exact ⟨k, s, hk, hm', h1, h2⟩
  · intro x k s hx hk h1 h2
    exact sessionLoop_assign_of_window hs hx hk h1 h2
  · intro k a b ha hb
    exact sessionStarts_succ_min hs k a b ha hb

/-- Witness for C1 at the concrete sorted point list `[0, 4, 8]`. -/
theorem C1_greedy_single_pass_witness :
    (([0, 4, 8] : List Nat) ≠ []) ∧
    ((sessionLoop 1 [0, 4, 8]).map Prod.fst = [0, 4, 8]) :=
  ⟨by decide, (C1_greedy_single_pass [0, 4, 8] (by decide) (by decide)).1⟩

/-- C2 is refuted on the concrete points `[0, 4, 8]`: all consecutive gaps
are 4 hours, strictly below 5, yet the pass opens a second session at
instant 8 (the window is anchored at the session start 0 and ends at 5, it
does not re-open at each absorbed point), so the points do not merge into a
single session, and the point opening session 2 comes only 4 hours after
the previous activity point. -/
theorem C2_counterexample :
    List.Chain' (fun a b : Nat => b - a < 5) [0, 4, 8] ∧
    sessionLoop 1 [0, 4, 8] = [(0, 1), (4, 1), (8, 2)] ∧
    ¬ (∃ s, ∀ p ∈ sessionLoop 1 [0, 4, 8], p.2 = s) ∧
    (8 - 4 < 5) := by
  have h : sessionLoop 1 [0, 4, 8] = [(0, 1), (4, 1), (8, 2)] := by
    simp [sessionLoop, sessionScan]
  have hchain : List.Chain' (fun a b : Nat => b - a < 5) [0, 4, 8] := by
    rw [List.chain'_cons, List.chain'_cons]
    exact ⟨by decide, by decide, List.chain'_singleton 8⟩
  refine ⟨hchain, h, ?_, by decide⟩
  rw [h]
  rintro ⟨s, hsall⟩
  have h1 := hsall (0, 1) (by simp)
  have h2 := hsall (8, 2) (by simp)
  simp at h1 h2
  omega

/-- C2 (amended): any two activity points assigned to the same session lie
inside one 5-hour window, hence are strictly less than 5 hours apart; but a
point that opens a new session is only guaranteed to be at least 5 hours
after the previous session's START — not after the previous activity point —
so inputs whose consecutive gaps all stay below 5 hours may still split
into several sessions. -/
theorem C2_window_law (ts : List Nat) (hs : List.Sorted (· ≤ ·) ts) :
    (∀ x m y, (x, m) ∈ sessionLoop 1 ts → (y, m) ∈ sessionLoop 1 ts → y < x + 5) ∧
    List.Chain' (fun a b => a + 5 ≤ b) (sessionStarts ts) ∧
    (∀ k s, (sessionStarts ts)[k]? = some s → (s, 1 + k) ∈ sessionLoop 1 ts) := by
  refine ⟨?_, sessionStarts_chain hs, ?_⟩
  · intro x m y hx hy
    obtain ⟨k1, s1, hk1, hm1, ha1, hb1⟩ := sessionLoop_assign hs 1 x m hx
    obtain ⟨k2, s2, hk2, hm2, ha2, hb2⟩ := sessionLoop_assign hs 1 y m hy
    have hkk : k1 = k2 := by omega
    subst hkk
    have hss : s1 = s2 := by
      rw [hk1] at hk2
      exact Option.some.inj hk2
    omega
  · intro k s hk
    exact sessionStarts_mem_assign 1 ts k s hk

/-- Witness for the amended C2 at the concrete sorted point list `[0, 7]`. -/
theorem C2_window_law_witness :
    List.Sorted (· ≤ ·) [0, 7] ∧
    List.Chain' (fun a b => a + 5 ≤ b) (sessionStarts [0, 7]) :=
  ⟨by decide, (C2_window_law [0, 7] (by decide)).2.1⟩

/-- C4: session ids start at 1 and increase by exactly 1 in the order
sessions open — every assigned id is at least 1, the ids are nondecreasing
along the pass, an id `1 + k` is assigned exactly when a `k`-th session
start exists (which then carries it); and sessions do not overlap: every
point of session `k + 2` lies at or after the end `startₖ + 5` of the
window of session `k + 1`, and any point of a later session is strictly
after every point of an earlier one. -/
theorem C4_monotone_nonoverlap (ts : List Nat) (_hne : ts ≠ [])
    (hs : List.Sorted (· ≤ ·) ts) :
    (∀ x m, (x, m) ∈ sessionLoop 1 ts → 1 ≤ m) ∧
    List.Sorted (· ≤ ·) ((sessionLoop 1 ts).map Prod.snd) ∧
    (∀ x m, (x, m) ∈ sessionLoop 1 ts →
      ∃ k s, m = 1 + k ∧ (sessionStarts ts)[k]? = some s) ∧
    (∀ k s, (sessionStarts ts)[k]? = some s → (s, 1 + k) ∈ sessionLoop 1 ts) ∧
    (∀ k a x m, (sessionStarts ts)[k]? = some a → (x, m) ∈ sessionLoop 1 ts →
      m = 1 + (k + 1) → a + 5 ≤ x) ∧
    (∀ x m y m2, (x, m) ∈ sessionLoop 1 ts → (y, m2) ∈ sessionLoop 1 ts →
      m < m2 → x < y) := by
  refine ⟨?_, sessionLoop_snd_sorted 1 ts, ?_, ?_, ?_, ?_⟩
  · intro x m hm
    exact sessionLoop_snd_ge 1 ts x m hm
  · intro x m hm
    obtain ⟨k, s, hk, hm', _, _⟩ := sessionLoop_assign hs 1 x m hm
    exact ⟨k, s, hm', hk⟩
  · intro k s hk
    exact sessionStarts_mem_assign 1 ts k s hk
  · intro k a x m hk hx hm
    obtain ⟨k2, s2, hk2, hm2, ha2, _⟩ := sessionLoop_assign hs 1 x m hx
    have hkk : k2 = k + 1 := by omega
    subst hkk
    have := sessionStarts_rel_of_lt hs (Nat.lt_succ_self k) hk hk2
    omega
  · intro x m y m2 hx hy hlt
    obtain ⟨k1, s1, hk1, hm1, ha1, hb1⟩ := sessionLoop_assign hs 1 x m hx
    obtain ⟨k2, s2, hk2, hm2, ha2, hb2⟩ := sessionLoop_assign hs 1 y m2 hy
    have hkk : k1 < k2 := by omega
    have := sessionStarts_rel_of_lt hs hkk hk1 hk2
    omega

/-- Witness for C4 at the concrete sorted point list `[0, 9]`. -/
theorem C4_monotone_nonoverlap_witness :
    (([0, 9] : List Nat) ≠ []) ∧
    List.Sorted (· ≤ ·) ((sessionLoop 1 [0, 9]).map Prod.snd) :=
  ⟨by decide, (C4_monotone_nonoverlap [0, 9] (by decide) (by decide)).2.1⟩

/-- C3 is refuted on a known day whose every hourly count is zero: the early
return of lines 144-145 happens before the sessions tables are initialised,
so the day comes back without any sessions mapping at all and a downstream
lookup of `stats['sessions']` is undefined (KeyError), instead of every
hour being assigned session id 0. -/
theorem C3_counterexample :
    analyzeSessions [(0, ⟨0, [(0, 0)], none⟩)] = [(0, ⟨0, [(0, 0)], none⟩)] ∧
    ¬ (∀ p ∈ analyzeSessions [(0, ⟨0, [(0, 0)], none⟩)],
        ((p.2.sessions.isSome : Bool) : Prop)) := by
  constructor
  · rfl
  · decide

/-- C3 (amended): when at least one `(day, hour)` pair carries a positive
count, the analysis returns exactly the input days and gives every one of
them a sessions table defined on every hour 0..23 with a (trivially
nonnegative) session id; with no days at all the output is empty and the
statement holds vacuously; but when days exist and every count is zero the
sessions tables are missing entirely (see the counterexample), so the
original unrestricted claim fails. -/
theorem C3_partition_complete (ds : DailyStats) (h : timePoints ds ≠ []) :
    ((analyzeSessions ds).map Prod.fst = ds.map Prod.fst) ∧
    ∀ p ∈ analyzeSessions ds, ∃ m, p.2.sessions = some m ∧
      ∀ h2, h2 < 24 → ∃ v, m.lookup h2 = some v ∧ (v = 0 ∨ 0 < v) := by
  refine ⟨analyzeSessions_map_fst ds, ?_⟩
  intro p hp
  obtain ⟨m, hm, hk⟩ := analyzeSessions_complete h p hp
  refine ⟨m, hm, ?_⟩
  intro h2 hh2
  obtain ⟨v, hv⟩ := Option.isSome_iff_exists.mp (hk h2 hh2)
  exact ⟨v, hv, by omega⟩

/-- Witness for the amended C3 at a one-day input with one active hour. -/
theorem C3_partition_complete_witness :
    (timePoints [(0, ⟨1, [(3, 1)], none⟩)] ≠ []) ∧
    ((analyzeSessions [(0, ⟨1, [(3, 1)], none⟩)]).map Prod.fst
      = ([(0, ⟨1, [(3, 1)], none⟩)] : DailyStats).map Prod.fst) :=
  ⟨by decide, (C3_partition_complete [(0, ⟨1, [(3, 1)], none⟩)] (by decide)).1⟩

/-- C5: the forecast rule of lines 633-688 on the stats of the most recent
day — when no hour is active (`queries > 0 and session_id > 0`) no
prediction is produced; otherwise, with `hmax` the latest active hour and
`sh` the earliest hour of that same day assigned the session id of `hmax`,
the prediction is hour `(sh + 5) % 24` on the same date when `sh + 5 < 24`
and on the next calendar date otherwise. -/
theorem C5_forecast_rule (d : Nat) (hourly sessions : List (Nat × Nat)) :
    ((∀ h, h < 24 → ¬ activeAt hourly sessions h) →
      predictedNextSession d hourly sessions = none) ∧
    (∀ hmax sh, hmax < 24 → activeAt hourly sessions hmax →
      (∀ h, h < 24 → activeAt hourly sessions h → h ≤ hmax) →
      sh < 24 → lookupD sessions sh 0 = lookupD sessions hmax 0 →
      (∀ h, h < 24 → lookupD sessions h 0 = lookupD sessions hmax 0 → sh ≤ h) →
      predictedNextSession d hourly sessions =
        if sh + 5 < 24 then some (d, (sh + 5) % 24)
        else some (d + 1, (sh + 5) % 24)) := by
  constructor
  · intro h
    exact predictedNextSession_none d hourly sessions h
  · intro hmax sh h1 h2 h3 h4 h5 h6
    rw [predictedNextSession_spec d hourly sessions hmax sh h1 h2 h3 h4 h5 h6]
    by_cases hc : sh + 5 ≥ 24
    · rw [if_pos hc, if_neg (by omega)]
    · rw [if_neg hc, if_pos (by omega), Nat.mod_eq_of_lt (by omega)]

/-- Witness for C5, the scenario of a session starting at local hour 22 on
day 100: the prediction is hour 3 of day 101 (22 + 5 = 27, 27 mod 24 = 3,
the date advances). -/
theorem C5_forecast_rule_witness :
    (23 < 24 ∧ activeAt [(22, 3), (23, 1)] [(22, 1), (23, 1)] 23) ∧
    predictedNextSession 100 [(22, 3), (23, 1)] [(22, 1), (23, 1)] = some (101, 3) := by
  refine ⟨⟨by decide, by decide⟩, ?_⟩
  have h := (C5_forecast_rule 100 [(22, 3), (23, 1)] [(22, 1), (23, 1)]).2 23 22
    (by decide) (by decide) (by decide) (by decide) (by decide) (by decide)
  rw [h]
  decide

set_option maxRecDepth 8000 in
/-- C6 is refuted when the latest session began on the day before the most
recent recorded day: with activity at hour 23 of day 0 and hour 0 of day 1
(one single session, window `[23, 28)`), the session's earliest covered
instant is 23, so start plus 5 hours is instant 28 (day 1, hour 4) — but
the code searches the session's earliest hour inside the latest day only,
finds hour 0, and predicts hour 5 of day 1 (instant 29). -/
theorem C6_counterexample :
    reportPrediction [(0, ⟨1, [(23, 1)], none⟩), (1, ⟨1, [(0, 1)], none⟩)] = some (1, 5) ∧
    specNextSessionInstant [(0, ⟨1, [(23, 1)], none⟩), (1, ⟨1, [(0, 1)], none⟩)] = some 28 ∧
    (1 * 24 + 5 : Nat) ≠ 28 := by
  have h1 : analyzeSessions [(0, ⟨1, [(23, 1)], none⟩), (1, ⟨1, [(0, 1)], none⟩)] =
      (sessionScanFull 28 1 [⟨23, 0, 23, 1⟩, ⟨24, 1, 0, 1⟩]
        (initSessions [(0, ⟨1, [(23, 1)], none⟩), (1, ⟨1, [(0, 1)], none⟩)])).1 := by
    rw [analyzeSessions, if_neg (by decide),
      show sortPoints (timePoints [(0, ⟨1, [(23, 1)], none⟩), (1, ⟨1, [(0, 1)], none⟩)])
        = [⟨23, 0, 23, 1⟩, ⟨24, 1, 0, 1⟩] from by decide,
      sessionLoopFull, if_pos (by decide)]
  refine ⟨?_, ?_, by decide⟩
  · rw [reportPrediction, h1]
    decide
  · rw [specNextSessionInstant, h1]
    decide

/-- C6 (amended): the forecast instant equals the earliest hour of the
latest session WITHIN the most recent recorded day, plus exactly 5 hours —
as an absolute instant, `d * 24 + sh + 5`.  This coincides with the
session's start plus 5 hours only when the session began on that day; when
it began earlier the code still anchors at the within-day earliest hour
(see the counterexample). -/
theorem C6_forecast_offset (d : Nat) (hourly sessions : List (Nat × Nat))
    (hmax sh : Nat) (h1 : hmax < 24) (h2 : activeAt hourly sessions hmax)
    (h3 : ∀ h, h < 24 → activeAt hourly sessions h → h ≤ hmax)
    (h4 : sh < 24) (h5 : lookupD sessions sh 0 = lookupD sessions hmax 0)
    (h6 : ∀ h, h < 24 → lookupD sessions h 0 = lookupD sessions hmax 0 → sh ≤ h) :
    (predictedNextSession d hourly sessions).map (fun p => p.1 * 24 + p.2)
      = some (d * 24 + sh + 5) := by
  rw [predictedNextSession_spec d hourly sessions hmax sh h1 h2 h3 h4 h5 h6]
  by_cases hc : sh + 5 ≥ 24
  · rw [if_pos hc]
    simp only [Option.map_some']
    exact congrArg some (by omega)
  · rw [if_neg hc]
    simp only [Option.map_some']
    exact congrArg some (by omega)

/-- Witness for the amended C6: one active hour 0 of day 2 with session 1
predicts instant `2 * 24 + 0 + 5 = 53`. -/
theorem C6_forecast_offset_witness :
    (0 < 24 ∧ activeAt [(0, 1)] [(0, 1)] 0) ∧
    (predictedNextSession 2 [(0, 1)] [(0, 1)]).map (fun p => p.1 * 24 + p.2)
      = some 53 := by
  refine ⟨⟨by decide, by decide⟩, ?_⟩
  have h := C6_forecast_offset 2 [(0, 1)] [(0, 1)] 0 0 (by decide) (by decide)
    (by decide) (by decide) (by decide) (by decide)
  rw [h]

/-- C7 is refuted: this line matches the digit shape of the pattern, but
month 13 is not a calendar month, so `datetime.strptime` raises ValueError
and `parse_log_line` propagates it — the function is not total in the
never-raises sense claimed. -/
theorem C7_counterexample :
    parseLogLine (("example.com").toList)
      (("2024-13-01 00:00:00.000 Info Request: example.com:80/").toList)
      = Except.error () := by
  rfl

/-- C7 (amended): the parser is total and deterministic — every input line
yields exactly one of: no event when the stripped line does not match the
anchored pattern; a parsed `(timestamp, domain)` event when it matches with
a calendar-valid timestamp; or a raised ValueError (the error outcome) when
it matches with a calendar-invalid timestamp.  The original claim admits
only the first two outcomes and fails on the third (see the
counterexample). -/
theorem C7_parser_totality (domain line : List Char) :
    (matchLogPattern domain (pyStrip line) = none ∧
      parseLogLine domain line = Except.ok none) ∨
    (∃ ts grp, matchLogPattern domain (pyStrip line) = some (ts, grp) ∧
      validTimestamp ts = true ∧
      parseLogLine domain line = Except.ok (some (ts, grp))) ∨
    (∃ ts grp, matchLogPattern domain (pyStrip line) = some (ts, grp) ∧
      validTimestamp ts = false ∧ parseLogLine domain line = Except.error ()) := by
  cases hm : matchLogPattern domain (pyStrip line) with
  | none =>
    left
    exact ⟨rfl, by simp only [parseLogLine, hm]⟩
  | some p =>
    rcases p with ⟨ts, grp⟩
    by_cases hv : validTimestamp ts = true
    · right; left
      refine ⟨ts, grp, rfl, hv, ?_⟩
      simp only [parseLogLine, hm]
      rw [if_pos hv]
    · right; right
      refine ⟨ts, grp, rfl, by simpa using hv, ?_⟩
      simp only [parseLogLine, hm]
      rw [if_neg hv]

/-- C8: writing a day record to its persisted JSON form and reading it back
reproduces the data — the reloaded `total_requests` equals the original
request count, the reloaded hour keys are exactly the decimal strings of
the original hour keys in order, and for every hour of day the lookup of
its stringified key returns exactly the original count. -/
theorem C8_roundtrip (day : Nat) (st : DayStats)
    (hk : ∀ p ∈ st.hourly, p.1 < 24) :
    ((loadDayRecord (saveDayRecord day st)).1 = st.requests) ∧
    (((loadDayRecord (saveDayRecord day st)).2).map Prod.fst
      = st.hourly.map (fun p => toString p.1)) ∧
    (∀ h, h < 24 →
      ((loadDayRecord (saveDayRecord day st)).2).lookup (toString h)
        = st.hourly.lookup h) := by
  refine ⟨rfl, ?_, ?_⟩
  · rw [show (loadDayRecord (saveDayRecord day st)).2
      = st.hourly.map (fun p => (toString p.1, p.2)) from rfl, List.map_map]
    rfl
  · intro h hh
    exact lookup_map_toString st.hourly hk h hh

/-- Witness for C8 at a concrete day record. -/
theorem C8_roundtrip_witness :
    (∀ p ∈ ([(2, 7), (23, 1)] : List (Nat × Nat)), p.1 < 24) ∧
    ((loadDayRecord (saveDayRecord 5 ⟨8, [(2, 7), (23, 1)], none⟩)).1 = 8) :=
  ⟨by decide, (C8_roundtrip 5 ⟨8, [(2, 7), (23, 1)], none⟩ (by decide)).1⟩

/-- C9: `save_daily_data` leaves the existing file of every day other than
today unchanged (past-day records are immutable), and leaves every day
absent from the aggregated stats untouched; the file of today is
(re)written with the serialized record whenever today is among the
aggregated days, and a file is created, with the serialized record, for
every aggregated day that had none. -/
theorem C9_save_frame (today : Nat) (ds : DailyStats) (fs : FileSys) :
    (∀ d, d ≠ today → ((fs.lookup d).isSome : Prop) →
      (saveDailyData today ds fs).lookup d = fs.lookup d) ∧
    (∀ d, (∀ p ∈ ds, p.1 ≠ d) →
      (saveDailyData today ds fs).lookup d = fs.lookup d) ∧
    (∀ st, (today, st) ∈ ds → ((ds.map Prod.fst).Nodup : Prop) →
      (saveDailyData today ds fs).lookup today = some (saveDayRecord today st)) ∧
    (∀ d st, (d, st) ∈ ds → fs.lookup d = none → ((ds.map Prod.fst).Nodup : Prop) →
      (saveDailyData today ds fs).lookup d = some (saveDayRecord d st)) := by
  refine ⟨?_, ?_, ?_, ?_⟩
  · intro d h1 h2
    exact saveDailyData_frame_past today ds fs d h1 h2
  · intro d h
    exact saveDailyData_frame_nonmem today ds fs d h
  · intro st h1 h2
    exact saveDailyData_today today ds fs st h1 h2
  · intro d st h1 h2 h3
    exact saveDailyData_creates today ds fs d st h1 h2 h3

/-- Witness for C9: the existing file of past day 9 is untouched by a run
whose stats cover days 9 and 10 with today = 10. -/
theorem C9_save_frame_witness :
    ((9 : Nat) ≠ 10) ∧
    (saveDailyData 10 [(9, ⟨1, [(0, 1)], none⟩), (10, ⟨2, [(1, 2)], none⟩)]
        [(9, saveDayRecord 9 ⟨5, [(4, 5)], none⟩)]).lookup 9
      = ([(9, saveDayRecord 9 ⟨5, [(4, 5)], none⟩)] : FileSys).lookup 9 :=
  ⟨by decide,
    (C9_save_frame 10 [(9, ⟨1, [(0, 1)], none⟩), (10, ⟨2, [(1, 2)], none⟩)]
      [(9, saveDayRecord 9 ⟨5, [(4, 5)], none⟩)]).1 9 (by decide) (by decide)⟩

/-- C10: in the JSON report, `summary.total_days` counts every `*.json`
file of the data directory, `report.json` included — so whenever the
directory listing contains `report.json` (any run after the first), it
exceeds the Markdown report's analyzed-days count, which excludes
`report.json` and equals the number of day files, by exactly one; without a
`report.json` in the listing the two counts agree. -/
theorem C10_total_days_off_by_one (files : List (List Char)) (hnd : files.Nodup) :
    ((("report.json").toList ∈ files →
      jsonReportTotalDays files = (markdownDayFiles files).length + 1)) ∧
    ((("report.json").toList ∉ files →
      jsonReportTotalDays files = (markdownDayFiles files).length)) := by
  induction files with
  | nil => exact ⟨fun h => absurd h (by simp), fun _ => rfl⟩
  | cons f rest ih =>
    have hnd2 : rest.Nodup := (List.nodup_cons.mp hnd).2
    have hfnot : f ∉ rest := (List.nodup_cons.mp hnd).1
    obtain ⟨ih1, ih2⟩ := ih hnd2
    rw [jsonReportTotalDays, markdownDayFiles] at ih1 ih2 ⊢
    rw [List.filter_cons, List.filter_cons]
    constructor
    · intro hmem
      rcases List.mem_cons.mp hmem with hf | hf
      · rw [if_pos (by rw [← hf]; decide), if_neg (by rw [← hf]; decide),
          List.length_cons]
        have := ih2 (fun hc => hfnot (hf ▸ hc))
        omega
      · have hfr : f ≠ ("report.json").toList := fun hc => hfnot (hc ▸ hf)
        have := ih1 hf
        by_cases hj : nameEndsWith f ((".json").toList) = true
        · rw [if_pos hj,
            if_pos ((Bool.and_eq_true _ _).mpr ⟨hj, decide_eq_true hfr⟩),
            List.length_cons, List.length_cons]
          omega
        · rw [if_neg hj, if_neg (fun hc => hj ((Bool.and_eq_true _ _).mp hc).1)]
          omega
    · intro hnmem
      have hfr : f ≠ ("report.json").toList :=
        fun hc => hnmem (hc ▸ List.mem_cons_self _ _)
      have hrest : ("report.json").toList ∉ rest :=
        fun hc => hnmem (List.mem_cons_of_mem _ hc)
      have := ih2 hrest
      by_cases hj : nameEndsWith f ((".json").toList) = true
      · rw [if_pos hj,
          if_pos ((Bool.and_eq_true _ _).mpr ⟨hj, decide_eq_true hfr⟩),
          List.length_cons, List.length_cons]
        omega
      · rw [if_neg hj, if_neg (fun hc => hj ((Bool.and_eq_true _ _).mp hc).1)]
        omega

/-- Witness for C10 on a directory holding two day files and the report. -/
theorem C10_total_days_off_by_one_witness :
    (([("2024-01-01.json").toList, ("2024-01-02.json").toList,
        ("report.json").toList] : List (List Char)).Nodup) ∧
    jsonReportTotalDays [("2024-01-01.json").toList, ("2024-01-02.json").toList,
        ("report.json").toList]
      = (markdownDayFiles [("2024-01-01.json").toList, ("2024-01-02.json").toList,
          ("report.json").toList]).length + 1 :=
  ⟨by decide,
    (C10_total_days_off_by_one [("2024-01-01.json").toList,
        ("2024-01-02.json").toList, ("report.json").toList] (by decide)).1
      (by decide)⟩

end Privoxy
